import Mathlib

/-!
Verification of the quantum word-search service
(`search_application_server.py`, `run_fake_backend.py`).

The classical parts of the code (text cleanup, database construction, the
HTTP handler, the port probe) are embedded directly.  The quantum library
primitives used by the code (`QuantumDictionary`, `tag_state`,
`auto_uncompute`, `grovers_alg`, `get_measurement`) are not part of the
repository; they are modelled from the specification: reversible lookup as
XOR into a scratch register, the marking oracle as a conditional phase
factor, amplitude amplification as the standard state-vector evolution on
`Fin N → ℂ`, and measurement as the squared-modulus distribution.
-/

open Real

namespace SearchApp

/-! ### Python string helpers used by `update_text` and `labeling` -/

/-- Character codes of Python's `string.punctuation`:
ASCII 33–47, 58–64, 91–96 and 123–126. -/
def punctCodes : List ℕ :=
  List.range' 33 15 ++ List.range' 58 7 ++ List.range' 91 6 ++ List.range' 123 4

/-- The characters of Python's `string.punctuation`. -/
def punctChars : List Char := punctCodes.map Char.ofNat

/-- `text.translate(translator)` with a translation table that deletes every
punctuation character. -/
def removePunct (s : List Char) : List Char :=
  s.filter (fun c => !punctChars.contains c)

/-- Python `s.split(" ")` with an explicit separator: split at every single
space, keeping empty fragments.  `acc` is the current fragment, reversed. -/
def splitSpaceAux : List Char → List Char → List (List Char)
  | [], acc => [acc.reverse]
  | c :: rest, acc =>
      if c = ' ' then acc.reverse :: splitSpaceAux rest []
      else splitSpaceAux rest (c :: acc)

/-- Python `s.split(" ")`. -/
def splitSpace (s : List Char) : List (List Char) := splitSpaceAux s []

/-- Binary digits of a positive natural number, most significant first;
`fuel` bounds the recursion depth. -/
def binDigitsAux : ℕ → ℕ → List Char
  | 0, _ => []
  | _ + 1, 0 => []
  | fuel + 1, n + 1 =>
      binDigitsAux fuel ((n + 1) / 2) ++ [if (n + 1) % 2 = 1 then '1' else '0']

/-- Binary digit string of a natural number (no prefix), as Python prints it. -/
def binDigits (n : ℕ) : List Char :=
  if n = 0 then ['0'] else binDigitsAux n n

/-- Python's `bin`: `bin(5) = "0b101"`, `bin(-5) = "-0b101"`. -/
def pyBin (z : ℤ) : List Char :=
  if z < 0 then '-' :: '0' :: 'b' :: binDigits z.natAbs
  else '0' :: 'b' :: binDigits z.natAbs

/-- Python slice `s[-k:]`: for `k = 0` this is `s[0:] = s`, otherwise the last
`min k (length s)` characters. -/
def pySliceLast (k : ℕ) (s : List Char) : List Char :=
  if k = 0 then s else s.drop (s.length - k)

/-- `SearchApplication.labeling`: `bin(hash(x))[-k:]`, with the process hash
function taken as a parameter. -/
def labeling {α : Type} (hash : α → ℤ) (k : ℕ) (x : α) : List Char :=
  pySliceLast k (pyBin (hash x))

/-- Modelled from the spec: Python's built-in string hash is
process-randomized (spec §9), so it is a function of a per-process seed as
well as of the hashed value.  The concrete mixing is irrelevant to the
claims; any seed-dependent function witnesses the non-determinism. -/
def processHash (seed : ℤ) (x : ℤ) : ℤ := seed + x

/-! ### `update_text`: cleanup, split, truncate to `2^n` words -/

/-- The list stored in `self.data` by `update_text`:
punctuation removed, split on single spaces, truncated to the first `2^n`
entries. -/
def update_text (n : ℕ) (text : List Char) : List (List Char) :=
  (splitSpace (removePunct text)).take (2 ^ n)

/-! ### `create_db_oracle`: the index → label mapping -/

/-- The mapping content of the quantum dictionary built by
`create_db_oracle`: `qd[i] = labeling(db[i])` for every `i < len(db)`.  -/
def create_db_oracle {α β : Type} (db : List α) (lab : α → β) : ℕ → Option β :=
  fun i => (db.get? i).map lab

/-- The all-zero `k`-bit label register. -/
def zeroReg (k : ℕ) : List Bool := List.replicate k false

/-- Bitwise XOR of two registers. -/
def xorBits (a b : List Bool) : List Bool := List.zipWith xor a b

/-- Modelled from the spec: forward evaluation of the reversible database
oracle (`QuantumDictionary` lookup is missing from the repository).  The
label of the current index is XOR-ed into the label register; the index
register is untouched. -/
def qdForward (qd : ℕ → List Bool) (st : ℕ × List Bool) : ℕ × List Bool :=
  (st.1, xorBits st.2 (qd st.1))

/-- Modelled from the spec: the exact inverse of `qdForward` (XOR-ing the
same value a second time). -/
def qdInverse (qd : ℕ → List Bool) (st : ℕ × List Bool) : ℕ × List Bool :=
  (st.1, xorBits st.2 (qd st.1))

/-- The bit-register view of the database oracle: the stored `k`-bit label of
index `i`, and the all-zero pattern on indices beyond the collection. -/
def dbOracleBits {α : Type} (db : List α) (lab : α → List Bool) (k : ℕ) : ℕ → List Bool :=
  fun i => (create_db_oracle db lab i).getD (zeroReg k)

/-! ### `create_query_oracle`: forward lookup, tag, uncompute -/

/-- Modelled from the spec: one evaluation of the query oracle built by
`create_query_oracle` (`tag_state` and `auto_uncompute` are missing from the
repository).  Forward-evaluate the database oracle into the label register,
read off the phase factor `exp(phase·I)` on the states whose label equals
the queried label, then uncompute the forward evaluation exactly.  Returns
the final classical register state together with the phase factor picked up
by the index value. -/
noncomputable def query_oracle_run (qd : ℕ → List Bool) (target : List Bool) (phase : ℂ)
    (i : ℕ) (reg : List Bool) : (ℕ × List Bool) × ℂ :=
  let st1 := qdForward qd (i, reg)
  let ph : ℂ := if st1.2 = target then Complex.exp (phase * Complex.I) else 1
  (qdInverse qd st1, ph)

/-! ### The HTTP boundary (`find_position`) -/

/-- Responses produced by the `/search_word` handler. -/
inductive Response where
  | badRequest (status : ℕ) (error : String)
  | notFound (position : ℤ)
  | found (position : ℤ)
  deriving DecidableEq

/-- The error message returned on malformed input. -/
def missingKeysMsg : String :=
  "JSON body must include both \"word\" and \"string\" keys."

/-- The `find_position` request handler.  `data` models the parsed JSON body
(`none` when the body is missing or unparsable); the search core — text
update plus `search_word`, which returns a natural-number index — is a
parameter `core`.  `not data` in Python is true for `None` and for an empty
dict, so both are rejected. -/
def find_position (core : List Char → List Char → ℕ)
    (data : Option (List (String × String))) : Response :=
  match data with
  | none => .badRequest 400 missingKeysMsg
  | some kvs =>
      if kvs = [] then .badRequest 400 missingKeysMsg
      else
        match kvs.lookup "word", kvs.lookup "string" with
        | some w, some s =>
            let position : ℤ := (core w.toList s.toList : ℕ)
            if position = -1 then .notFound (-1) else .found position
        | some _, none => .badRequest 400 missingKeysMsg
        | none, _ => .badRequest 400 missingKeysMsg

/-! ### The amplification engine (`grovers_alg`, modelled from the spec)

The state of the `n`-bit index register is a vector of complex amplitudes.
One amplification iteration applies the query oracle (phase factor `u` on
the marked indices) followed by the generalized diffusion operator
`I - (1-u)·|s⟩⟨s|`; at `u = -1` (phase π) this is the inversion about the
uniform-superposition mean, up to a global sign.  In exact mode the
iteration count is the integer round of `π/(4θ) - 1/2` with the rounding
chosen (upward when needed) so that a phase `u` making the final success
probability exactly 1 exists, and that phase is used. -/

/-- Amplitude vector over the `N` index-register basis states. -/
def GState (N : ℕ) : Type := Fin N → ℂ

/-- The uniform superposition produced by the initial Hadamard layer. -/
noncomputable def uniformState (N : ℕ) : GState N := fun _ => ((Real.sqrt N)⁻¹ : ℝ)

/-- Modelled from the spec: the marking oracle multiplies the amplitude of
every marked index by the phase factor `u`. -/
def oraclePhase {N : ℕ} (marked : Fin N → Bool) (u : ℂ) (st : GState N) : GState N :=
  fun i => if marked i then u * st i else st i

/-- Modelled from the spec: the generalized diffusion operator
`I - (1-u)·|s⟩⟨s|` with `|s⟩` the uniform superposition. -/
noncomputable def diffusion {N : ℕ} (u : ℂ) (st : GState N) : GState N :=
  fun i => st i - (1 - u) * ((∑ j, st j) / N)

/-- One amplification iteration: marking oracle then diffusion. -/
noncomputable def groverStep {N : ℕ} (marked : Fin N → Bool) (u : ℂ) (st : GState N) :
    GState N :=
  diffusion u (oraclePhase marked u st)

/-- The state after `t` amplification iterations from the uniform start. -/
noncomputable def groverRun (N : ℕ) (marked : Fin N → Bool) (u : ℂ) : ℕ → GState N
  | 0 => uniformState N
  | t + 1 => groverStep marked u (groverRun N marked u t)

/-- Modelled from the spec: the exact-mode iteration count for one marked
state among `N`, the integer round of `π/(4θ) - 1/2` with `θ = arcsin(√(1/N))`,
the rounding chosen (upward when the fractional part would be lost) so that
the final success probability can be made exactly 1. -/
noncomputable def grover_iterations (N : ℕ) : ℕ :=
  (⌈Real.pi / (4 * Real.arcsin (Real.sqrt (1 / N))) - 1 / 2⌉).toNat

/-- The spec's closed-form iteration count `round(π/(4·arcsin(√(M/N))) − 1/2)`
for `M` marked states among `N`. -/
noncomputable def exact_iterations (N M : ℕ) : ℤ :=
  round (Real.pi / (4 * Real.arcsin (Real.sqrt ((M : ℝ) / N))) - 1 / 2)

/-- Modelled from the spec: the oracle/diffusion phase of the exact variant,
chosen so that the success probability after `grover_iterations N` rounds is
exactly 1 (spec §4.3): `φ = 2·arcsin(sin(π/(4t+2))·√N)`. -/
noncomputable def exactPhase (N t : ℕ) : ℝ :=
  2 * Real.arcsin (Real.sin (Real.pi / (4 * t + 2)) * Real.sqrt N)

/-- The phase factor `e^{iφ}` used by the exact variant. -/
noncomputable def exactU (N t : ℕ) : ℂ :=
  Complex.exp ((exactPhase N t : ℝ) * Complex.I)

/-- The indices marked by the query oracle of `search_word`: those whose
stored label equals the label of the queried object. -/
def queryMarked {α β : Type} [DecidableEq β] (db : List α) (lab : α → β) (query : α)
    {N : ℕ} : Fin N → Bool :=
  fun i => decide (create_db_oracle db lab (i : ℕ) = some (lab query))

/-- The index-register state prepared by `search_word` on `2^n` indices
(winner_state_amount = 1, exact = True) just before measurement. -/
noncomputable def search_word_state {α β : Type} [DecidableEq β] (n : ℕ)
    (db : List α) (lab : α → β) (query : α) : GState (2 ^ n) :=
  groverRun (2 ^ n) (queryMarked db lab query)
    (exactU (2 ^ n) (grover_iterations (2 ^ n))) (grover_iterations (2 ^ n))

/-- Modelled from the spec: the probability that the backend measurement of
the prepared state observes index `i` (squared modulus of the amplitude). -/
noncomputable def outcomeProb {N : ℕ} (st : GState N) (i : Fin N) : ℝ :=
  Complex.normSq (st i)

/-- A state assigning amplitude `a` to the index `j` and `b` to every other
index.  States of this shape are preserved by the amplification iteration
when `j` is the only marked index. -/
def twoVal {N : ℕ} (j : Fin N) (a b : ℂ) : GState N :=
  fun i => if i = j then a else b

/-- The two-dimensional form of one amplification iteration on a `twoVal`
state: `p.1` is the amplitude of the marked index, `p.2` the common
amplitude of the other `N - 1` indices. -/
noncomputable def pairStep (N : ℕ) (u : ℂ) (p : ℂ × ℂ) : ℂ × ℂ :=
  (u * p.1 - (1 - u) * ((u * p.1 + (N - 1) * p.2) / N),
   p.2 - (1 - u) * ((u * p.1 + (N - 1) * p.2) / N))

/-- The two-dimensional amplification iteration from the uniform start. -/
noncomputable def pairRun (N : ℕ) (u : ℂ) : ℕ → ℂ × ℂ
  | 0 => (((Real.sqrt N)⁻¹ : ℝ), ((Real.sqrt N)⁻¹ : ℝ))
  | t + 1 => pairStep N u (pairRun N u t)

/-- `sin(2tβ)/sin(2β)`, the Chebyshev-type coefficient of the closed form of
the amplification recurrence. -/
noncomputable def chebA (β : ℝ) (t : ℕ) : ℝ := Real.sin (2 * t * β) / Real.sin (2 * β)

/-- `sin(2tβ - 2β)/sin(2β)`, the lagged Chebyshev-type coefficient. -/
noncomputable def chebB (β : ℝ) (t : ℕ) : ℝ :=
  Real.sin (2 * t * β - 2 * β) / Real.sin (2 * β)

/-- The coefficient `(2 - 4q) - conj u` appearing in the closed form of the
marked amplitude, where `q = sin²β`. -/
noncomputable def coefK (u : ℂ) (q : ℝ) : ℂ := ((2 - 4 * q : ℝ) : ℂ) - (starRingEnd ℂ) u

/-- The coefficient `1 - 4q` appearing in the closed form of the unmarked
amplitude, where `q = sin²β`. -/
noncomputable def coefL (q : ℝ) : ℂ := ((1 - 4 * q : ℝ) : ℂ)

/-- Closed form of the marked amplitude after `t` iterations. -/
noncomputable def pairA (N : ℕ) (u : ℂ) (β : ℝ) (t : ℕ) : ℂ :=
  u ^ t * ((Real.sqrt N)⁻¹ : ℝ) * (chebA β t * coefK u (Real.sin β ^ 2) - chebB β t)

/-- Closed form of the common unmarked amplitude after `t` iterations. -/
noncomputable def pairB (N : ℕ) (u : ℂ) (β : ℝ) (t : ℕ) : ℂ :=
  u ^ t * ((Real.sqrt N)⁻¹ : ℝ) * (chebA β t * coefL (Real.sin β ^ 2) - chebB β t)

/-! ### The backend launcher (`run_fake_backend.py`) -/

/-- Outcome of running `main` in `run_fake_backend.py`. -/
inductive LauncherAction where
  | startBackend
  | skip
  deriving DecidableEq

/-- Modelled from the spec: binding a fresh socket to `127.0.0.1:42069`
(socket semantics are not part of the repository) raises iff the endpoint is
already bound.  `port_already_in_use` returns `true` exactly on the raise. -/
def port_already_in_use (bound : Bool) : Bool :=
  match (if bound then Except.error () else Except.ok () : Except Unit Unit) with
  | .error _ => true
  | .ok _ => false

/-- `main` of `run_fake_backend.py`: start the backend unless the probe says
the port is taken. -/
def main (bound : Bool) : LauncherAction :=
  if port_already_in_use bound then .skip else .startBackend

/-! ## Lemmas about the reversible register model -/

theorem xorBits_cancel (a b : List Bool) (h : a.length = b.length) :
    xorBits (xorBits a b) b = a := by
  induction a generalizing b with
  | nil => cases b with
    | nil => rfl
    | cons x xs => simp at h
  | cons y ys ih =>
      cases b with
      | nil => simp at h
      | cons x xs =>
          simp only [List.length_cons, Nat.succ_inj] at h
          simp only [xorBits, List.zipWith_cons_cons] at *
          refine congrArg₂ _ ?_ (ih xs h)
          cases y <;> cases x <;> rfl

theorem xorBits_zero (l : List Bool) : xorBits (zeroReg l.length) l = l := by
  induction l with
  | nil => rfl
  | cons x xs ih =>
      simp only [zeroReg, List.length_cons, List.replicate_succ] at *
      simp only [xorBits, List.zipWith_cons_cons] at *
      exact congrArg₂ _ (Bool.false_xor x) ih

theorem dbOracleBits_length {α : Type} (db : List α) (lab : α → List Bool) (k : ℕ)
    (hlab : ∀ x, (lab x).length = k) (i : ℕ) :
    (dbOracleBits db lab k i).length = k := by
  unfold dbOracleBits create_db_oracle
  cases db.get? i with
  | none => simp [zeroReg]
  | some x => simp [hlab x]

/-! ## C3: the database oracle encodes `labeling(db[i])` and is exactly
invertible -/

/-- C3.  The oracle built by `create_db_oracle` maps every index
`i < len(db)` to `labeling(db[i])`; evaluating it forward from a zero label
register produces that label, and forward evaluation followed by the exact
inverse restores any label register and leaves the index unchanged. -/
theorem claim_C3_db_oracle {α : Type} (db : List α) (lab : α → List Bool) (k : ℕ)
    (hlab : ∀ x, (lab x).length = k) (i : ℕ) (h : i < db.length) :
    create_db_oracle db lab i = some (lab (db.get ⟨i, h⟩)) ∧
    qdForward (dbOracleBits db lab k) (i, zeroReg k) = (i, lab (db.get ⟨i, h⟩)) ∧
    (∀ reg : List Bool, reg.length = k →
      qdInverse (dbOracleBits db lab k) (qdForward (dbOracleBits db lab k) (i, reg)) =
        (i, reg)) := by
  have hmap : create_db_oracle db lab i = some (lab (db.get ⟨i, h⟩)) := by
    simp only [create_db_oracle]
    rw [List.get?_eq_get h]
    rfl
  have hbits : dbOracleBits db lab k i = lab (db.get ⟨i, h⟩) := by
    simp [dbOracleBits, hmap]
  refine ⟨hmap, ?_, ?_⟩
  · have hlen : (lab (db.get ⟨i, h⟩)).length = k := hlab _
    simp only [qdForward, hbits]
    rw [show zeroReg k = zeroReg (lab (db.get ⟨i, h⟩)).length by rw [hlen]]
    rw [xorBits_zero]
  · intro reg hreg
    simp only [qdForward, qdInverse]
    rw [xorBits_cancel]
    rw [hreg, dbOracleBits_length db lab k hlab]

/-- Witness for C3 at a concrete database. -/
theorem claim_C3_witness :
    create_db_oracle [(), ()] (fun _ => [true]) 0 = some [true] ∧
    qdForward (dbOracleBits [(), ()] (fun _ => [true]) 1) (0, zeroReg 1) = (0, [true]) ∧
    (∀ reg : List Bool, reg.length = 1 →
      qdInverse (dbOracleBits [(), ()] (fun _ => [true]) 1)
        (qdForward (dbOracleBits [(), ()] (fun _ => [true]) 1) (0, reg)) = (0, reg)) :=
  claim_C3_db_oracle [(), ()] (fun _ => [true]) 1 (fun _ => rfl) 0 (by decide)

/-! ## C4: `update_text` truncates to `2^n` entries and never fails -/

/-- C4.  `update_text` stores at most `2^n` entries: the stored collection is
exactly the first `2^n` cleaned-up words, entries beyond that are silently
dropped, and the database oracle is defined on every stored index (pure
construction, no failure). -/
theorem claim_C4_update_text (n : ℕ) (text : List Char) {β : Type} (lab : List Char → β) :
    (update_text n text).length ≤ 2 ^ n ∧
    update_text n text = (splitSpace (removePunct text)).take (2 ^ n) ∧
    ∀ i, i < (update_text n text).length →
      ∃ l, create_db_oracle (update_text n text) lab i = some l := by
  refine ⟨?_, rfl, ?_⟩
  · simp [update_text]
  · intro i hi
    refine ⟨lab ((update_text n text).get ⟨i, hi⟩), ?_⟩
    simp only [create_db_oracle]
    rw [List.get?_eq_get hi]
    rfl

/-- Witness for C4 on a concrete text. -/
theorem claim_C4_witness :
    (update_text 1 ("a, b! c".toList)).length ≤ 2 ^ 1 ∧
    ∃ l, create_db_oracle (update_text 1 ("a, b! c".toList)) id 0 = some l := by
  obtain ⟨h1, _, h3⟩ := claim_C4_update_text 1 ("a, b! c".toList) id
  exact ⟨h1, h3 0 (by decide)⟩

/-! ## C5: the labeling function does not always return `k` bits -/

/-- C5 (code bug).  The claim says `labeling` returns a `k`-character string
over the alphabet 0/1 for every item, matching the docstring of
`SearchApplication` ("a bitstring of size k").  The code computes
`bin(hash(x))[-k:]`, which keeps part of Python's `0b` prefix whenever the
hash value has fewer than `k` binary digits.  With `k = 6` and an item whose
hash is `16` (in CPython `hash(16) = 16`), the label is `"b10000"`, which
contains the letter `b`; with hash `1` the label is `"0b1"`, which has
length 3, not 6. -/
theorem claim_C5_labeling_not_bitstring :
    labeling (fun z : ℤ => z) 6 16 = ['b', '1', '0', '0', '0', '0'] ∧
    ¬ (∀ c ∈ labeling (fun z : ℤ => z) 6 16, c = '0' ∨ c = '1') ∧
    (labeling (fun z : ℤ => z) 6 1).length = 3 := by decide

/-! ## C6: encoder determinism holds per labeling function, but not across
process restarts -/

/-- C6 (counterexample).  The database oracle built from the same collection
and the same label size differs between two process runs, because the
labeling closes over Python's process-randomized built-in hash: two process
seeds give different index → label mappings. -/
theorem claim_C6_counterexample :
    create_db_oracle [(0 : ℤ)] (labeling (processHash 0) 1) ≠
      create_db_oracle [(0 : ℤ)] (labeling (processHash 1) 1) := by
  intro h
  exact absurd (congrFun h 0) (by decide)

/-- C6 (amended).  For identical `(collection, labeling_fn, k)` the encoder
is deterministic in the strong, extensional sense: any two labeling
functions that agree on the stored items — in particular the same function
evaluated twice within one process — produce the identical index → label
mapping.  Across process restarts the labeling function itself changes
(process-randomized hash), and the mapping may differ. -/
theorem claim_C6_encoder_determinism {α β : Type} (db : List α) (f g : α → β)
    (h : ∀ x ∈ db, f x = g x) :
    create_db_oracle db f = create_db_oracle db g := by
  funext i
  simp only [create_db_oracle]
  cases hg : db.get? i with
  | none => rfl
  | some x => simp [h x (List.get?_mem hg)]

/-- Witness for the amended C6. -/
theorem claim_C6_witness :
    create_db_oracle [(5 : ℤ), 7] (fun z => z + 0) = create_db_oracle [(5 : ℤ), 7] id :=
  claim_C6_encoder_determinism _ _ _ (by decide)

/-! ## C7: the query marker restores the label register for every index -/

/-- C7.  For every index value, evaluating the query marker — forward
database-oracle evaluation, comparison against the target label with a
phase factor on equality, then uncomputation — leaves the label register at
zero (more generally, restores any initial register) and the index
unchanged, so no residual correlation between the index and label registers
survives; the phase factor is `exp(i·phase)` exactly on the indices whose
stored label equals the target. -/
theorem claim_C7_query_marker {α : Type} (db : List α) (lab : α → List Bool) (k : ℕ)
    (hlab : ∀ x, (lab x).length = k) (target : List Bool) (phase : ℂ) (i : ℕ) :
    (query_oracle_run (dbOracleBits db lab k) target phase i (zeroReg k)).1 =
      (i, zeroReg k) ∧
    (∀ reg : List Bool, reg.length = k →
      (query_oracle_run (dbOracleBits db lab k) target phase i reg).1 = (i, reg)) ∧
    (query_oracle_run (dbOracleBits db lab k) target phase i (zeroReg k)).2 =
      (if dbOracleBits db lab k i = target then Complex.exp (phase * Complex.I) else 1) := by
  have hlen := dbOracleBits_length db lab k hlab
  have hrestore : ∀ reg : List Bool, reg.length = k →
      (query_oracle_run (dbOracleBits db lab k) target phase i reg).1 = (i, reg) := by
    intro reg hreg
    simp only [query_oracle_run, qdForward, qdInverse]
    rw [xorBits_cancel]
    rw [hreg, hlen i]
  refine ⟨hrestore _ (by simp [zeroReg]), hrestore, ?_⟩
  simp only [query_oracle_run, qdForward]
  have hz : xorBits (zeroReg k) (dbOracleBits db lab k i) = dbOracleBits db lab k i := by
    rw [show zeroReg k = zeroReg (dbOracleBits db lab k i).length by rw [hlen i]]
    exact xorBits_zero _
  simp only [hz]

/-- Witness for C7 at a concrete database and index. -/
theorem claim_C7_witness :
    (query_oracle_run (dbOracleBits [()] (fun _ => [true]) 1) [true] Real.pi 0
        (zeroReg 1)).1 = (0, zeroReg 1) ∧
    (query_oracle_run (dbOracleBits [()] (fun _ => [true]) 1) [true] Real.pi 0
        (zeroReg 1)).2 =
      (if dbOracleBits [()] (fun _ => [true]) 1 0 = [true] then
        Complex.exp ((Real.pi : ℂ) * Complex.I) else 1) := by
  obtain ⟨h1, _, h3⟩ :=
    claim_C7_query_marker [()] (fun _ => [true]) 1 (fun _ => rfl) [true] (Real.pi : ℂ) 0
  exact ⟨h1, h3⟩

/-! ## Two-valued reduction of the amplification iteration -/

theorem sum_twoVal {N : ℕ} (j : Fin N) (a b : ℂ) :
    (∑ i, twoVal j a b i) = a + ((N : ℂ) - 1) * b := by
  have h : ∀ i : Fin N, twoVal j a b i = b + (if i = j then a - b else 0) := by
    intro i
    by_cases h : i = j <;> simp [twoVal, h]
  rw [Finset.sum_congr rfl (fun i _ => h i), Finset.sum_add_distrib, Finset.sum_const,
    Finset.sum_ite_eq' Finset.univ j (fun _ => a - b)]
  simp [Finset.card_univ, nsmul_eq_mul]
  ring

theorem oraclePhase_twoVal {N : ℕ} (j : Fin N) (marked : Fin N → Bool)
    (hm : ∀ i, marked i = decide (i = j)) (u a b : ℂ) :
    oraclePhase marked u (twoVal j a b) = twoVal j (u * a) b := by
  funext i
  by_cases h : i = j <;> simp [oraclePhase, twoVal, hm, h]

theorem groverStep_twoVal {N : ℕ} (j : Fin N) (marked : Fin N → Bool)
    (hm : ∀ i, marked i = decide (i = j)) (u a b : ℂ) :
    groverStep marked u (twoVal j a b) =
      twoVal j (pairStep N u (a, b)).1 (pairStep N u (a, b)).2 := by
  funext i
  simp only [groverStep, oraclePhase_twoVal j marked hm u a b, diffusion,
    sum_twoVal j (u * a) b]
  by_cases h : i = j <;> simp [twoVal, pairStep, h]

theorem groverRun_twoVal {N : ℕ} (j : Fin N) (marked : Fin N → Bool)
    (hm : ∀ i, marked i = decide (i = j)) (u : ℂ) (t : ℕ) :
    groverRun N marked u t = twoVal j (pairRun N u t).1 (pairRun N u t).2 := by
  induction t with
  | zero =>
      funext i
      simp [groverRun, uniformState, pairRun, twoVal]
  | succ t ih =>
      rw [groverRun, ih, groverStep_twoVal j marked hm u, pairRun]

/-! ## The closed form of the two-dimensional recurrence -/

theorem grover_step_marked (u S q sg sg' sgp K : ℂ)
    (hquad : S * u ^ 2 = (2 * S - 4 * q) * u - S)
    (hK : u * K = (2 - 4 * q) * u - 1)
    (hcheb : sgp = 2 * (1 - 2 * q) * sg - sg') :
    u * (sg * K - sg') -
      (1 - u) * (S * (u * (sg * K - sg')) + (1 - S) * (sg * (1 - 4 * q) - sg')) =
    u * (sgp * K - sg) := by
  linear_combination ((2 - 4 * q) * sg - sg') * hquad +
    (sg - (1 - u) * S * sg - sgp) * hK + (1 - (2 - 4 * q) * u) * hcheb

theorem grover_step_unmarked (u S q sg sg' sgp K : ℂ)
    (hquad : S * u ^ 2 = (2 * S - 4 * q) * u - S)
    (hK : u * K = (2 - 4 * q) * u - 1)
    (hcheb : sgp = 2 * (1 - 2 * q) * sg - sg') :
    (sg * (1 - 4 * q) - sg') -
      (1 - u) * (S * (u * (sg * K - sg')) + (1 - S) * (sg * (1 - 4 * q) - sg')) =
    u * (sgp * (1 - 4 * q) - sg) := by
  linear_combination ((2 - 4 * q) * sg - sg') * hquad +
    (-((1 - u) * S * sg)) * hK + (-(u * (1 - 4 * q))) * hcheb

theorem chebA_zero (β : ℝ) : chebA β 0 = 0 := by
  simp [chebA]

theorem chebB_zero (β : ℝ) (hs2 : Real.sin (2 * β) ≠ 0) : chebB β 0 = -1 := by
  rw [chebB]
  norm_num
  rw [neg_div, div_self hs2]

theorem chebB_succ (β : ℝ) (t : ℕ) : chebB β (t + 1) = chebA β t := by
  rw [chebB, chebA]
  have harg : 2 * ((t : ℝ) + 1) * β - 2 * β = 2 * t * β := by ring
  rw [show ((t + 1 : ℕ) : ℝ) = (t : ℝ) + 1 by push_cast; ring, harg]

theorem chebA_succ (β : ℝ) (t : ℕ) :
    chebA β (t + 1) = 2 * (1 - 2 * Real.sin β ^ 2) * chebA β t - chebB β t := by
  have h2 : Real.cos (2 * β) = 1 - 2 * Real.sin β ^ 2 := by
    rw [Real.cos_two_mul, Real.cos_sq']
    ring
  have hadd : Real.sin (2 * ((t : ℝ) + 1) * β) =
      2 * Real.cos (2 * β) * Real.sin (2 * t * β) - Real.sin (2 * t * β - 2 * β) := by
    rw [show 2 * ((t : ℝ) + 1) * β = 2 * t * β + 2 * β by ring, Real.sin_add, Real.sin_sub]
    ring
  rw [chebA, chebA, chebB, show ((t + 1 : ℕ) : ℝ) = (t : ℝ) + 1 by push_cast; ring, hadd, h2]
  ring

theorem step_invariant_aux (Nc u v a va b vb m vm : ℂ)
    (huv : u * v = 1)
    (hm : Nc * m = u * a + (Nc - 1) * b)
    (hvm : Nc * vm = v * va + (Nc - 1) * vb) :
    (u * a - (1 - u) * m) * (v * va - (1 - v) * vm) +
      (Nc - 1) * ((b - (1 - u) * m) * (vb - (1 - v) * vm)) =
    a * va + (Nc - 1) * (b * vb) := by
  linear_combination (a * va + Nc * m * vm) * huv + ((1 - v) * vm) * hm + ((1 - u) * m) * hvm

theorem pairStep_invariant (N : ℕ) (hN : (N : ℂ) ≠ 0) (u a b : ℂ)
    (hu1 : u * (starRingEnd ℂ) u = 1) :
    (pairStep N u (a, b)).1 * (starRingEnd ℂ) (pairStep N u (a, b)).1 +
      ((N : ℂ) - 1) * ((pairStep N u (a, b)).2 * (starRingEnd ℂ) (pairStep N u (a, b)).2) =
    a * (starRingEnd ℂ) a + ((N : ℂ) - 1) * (b * (starRingEnd ℂ) b) := by
  have hm : (N : ℂ) * ((u * a + ((N : ℂ) - 1) * b) / N) = u * a + ((N : ℂ) - 1) * b := by
    field_simp
  have hvm : (N : ℂ) *
      ((starRingEnd ℂ u * starRingEnd ℂ a + ((N : ℂ) - 1) * starRingEnd ℂ b) / N) =
      starRingEnd ℂ u * starRingEnd ℂ a + ((N : ℂ) - 1) * starRingEnd ℂ b := by
    field_simp
  have key := step_invariant_aux (N : ℂ) u (starRingEnd ℂ u) a (starRingEnd ℂ a) b
    (starRingEnd ℂ b) ((u * a + ((N : ℂ) - 1) * b) / N)
    ((starRingEnd ℂ u * starRingEnd ℂ a + ((N : ℂ) - 1) * starRingEnd ℂ b) / N) hu1 hm hvm
  simp only [pairStep, map_sub, map_mul, map_add, map_div₀, map_one, map_natCast]
  linear_combination key

theorem pairRun_invariant (N : ℕ) (hN0 : 0 < N) (u : ℂ)
    (hu1 : u * (starRingEnd ℂ) u = 1) (t : ℕ) :
    (pairRun N u t).1 * (starRingEnd ℂ) (pairRun N u t).1 +
      ((N : ℂ) - 1) * ((pairRun N u t).2 * (starRingEnd ℂ) (pairRun N u t).2) = 1 := by
  have hN : (N : ℂ) ≠ 0 := Nat.cast_ne_zero.mpr hN0.ne'
  induction t with
  | zero =>
      simp only [pairRun, Complex.ofReal_inv, map_inv₀, Complex.conj_ofReal]
      have hx : ((Real.sqrt N : ℝ) : ℂ) ^ 2 = (N : ℂ) := by
        rw [← Complex.ofReal_pow, Real.sq_sqrt (Nat.cast_nonneg N)]
        norm_num
      have hx0 : ((Real.sqrt N : ℝ) : ℂ) ≠ 0 := by
        intro h
        rw [← Complex.ofReal_zero] at h
        have := Complex.ofReal_inj.mp h
        exact (Real.sqrt_ne_zero'.mpr (by exact_mod_cast hN0)) this
      field_simp
      linear_combination -hx
  | succ t ih =>
      rw [pairRun]
      exact (pairStep_invariant N hN u (pairRun N u t).1 (pairRun N u t).2 hu1).trans ih

theorem pairRun_closed (N : ℕ) (u : ℂ) (β : ℝ)
    (hN : (N : ℂ) ≠ 0)
    (hs2 : Real.sin (2 * β) ≠ 0)
    (hu1 : u * (starRingEnd ℂ) u = 1)
    (hrel : ((N : ℂ))⁻¹ * (u + (starRingEnd ℂ) u) =
      2 * ((N : ℂ))⁻¹ - 4 * ((Real.sin β ^ 2 : ℝ) : ℂ)) :
    ∀ t, pairRun N u t = (pairA N u β t, pairB N u β t) := by
  have hquad : ((N : ℂ))⁻¹ * u ^ 2 =
      (2 * ((N : ℂ))⁻¹ - 4 * ((Real.sin β ^ 2 : ℝ) : ℂ)) * u - ((N : ℂ))⁻¹ := by
    linear_combination u * hrel - ((N : ℂ))⁻¹ * hu1
  have hK : u * coefK u (Real.sin β ^ 2) =
      (2 - 4 * ((Real.sin β ^ 2 : ℝ) : ℂ)) * u - 1 := by
    rw [coefK]
    push_cast
    linear_combination -hu1
  have hNS : ((N : ℂ))⁻¹ * (N : ℂ) = 1 := inv_mul_cancel₀ hN
  intro t
  induction t with
  | zero =>
      simp [pairRun, pairA, pairB, chebA_zero, chebB_zero β hs2]
  | succ t ih =>
      rw [pairRun, ih]
      have hchebC : ((chebA β (t + 1) : ℝ) : ℂ) =
          2 * (1 - 2 * ((Real.sin β ^ 2 : ℝ) : ℂ)) * ((chebA β t : ℝ) : ℂ) -
            ((chebB β t : ℝ) : ℂ) := by
        have := chebA_succ β t
        push_cast [this]
        ring
      have hBsC : ((chebB β (t + 1) : ℝ) : ℂ) = ((chebA β t : ℝ) : ℂ) := by
        exact_mod_cast congrArg (fun x : ℝ => (x : ℂ)) (chebB_succ β t)
      have hid1 := grover_step_marked u ((N : ℂ))⁻¹ ((Real.sin β ^ 2 : ℝ) : ℂ)
        ((chebA β t : ℝ) : ℂ) ((chebB β t : ℝ) : ℂ) ((chebA β (t + 1) : ℝ) : ℂ)
        (coefK u (Real.sin β ^ 2)) hquad hK hchebC
      have hid2 := grover_step_unmarked u ((N : ℂ))⁻¹ ((Real.sin β ^ 2 : ℝ) : ℂ)
        ((chebA β t : ℝ) : ℂ) ((chebB β t : ℝ) : ℂ) ((chebA β (t + 1) : ℝ) : ℂ)
        (coefK u (Real.sin β ^ 2)) hquad hK hchebC
      simp only [pairStep, Prod.mk.injEq]
      constructor
      · simp only [pairA, pairB, coefL, hBsC, div_eq_inv_mul,
          Complex.ofReal_inv, Complex.ofReal_sub, Complex.ofReal_mul,
          Complex.ofReal_one, Complex.ofReal_ofNat]
        linear_combination (u ^ t * (((Real.sqrt N : ℝ) : ℂ))⁻¹) * hid1 -
          ((1 - u) * (u ^ t * (((Real.sqrt N : ℝ) : ℂ))⁻¹) *
            (((chebA β t : ℝ) : ℂ) * (1 - 4 * ((Real.sin β ^ 2 : ℝ) : ℂ)) -
              ((chebB β t : ℝ) : ℂ))) * hNS
      · simp only [pairA, pairB, coefL, hBsC, div_eq_inv_mul,
          Complex.ofReal_inv, Complex.ofReal_sub, Complex.ofReal_mul,
          Complex.ofReal_one, Complex.ofReal_ofNat]
        linear_combination (u ^ t * (((Real.sqrt N : ℝ) : ℂ))⁻¹) * hid2 -
          ((1 - u) * (u ^ t * (((Real.sqrt N : ℝ) : ℂ))⁻¹) *
            (((chebA β t : ℝ) : ℂ) * (1 - 4 * ((Real.sin β ^ 2 : ℝ) : ℂ)) -
              ((chebB β t : ℝ) : ℂ))) * hNS

/-! ## Properties of the exact-mode iteration count and phase -/

theorem grover_iterations_spec (N : ℕ) (hN : 2 ≤ N) :
    1 ≤ grover_iterations N ∧
    Real.pi / (4 * Real.arcsin (Real.sqrt (1 / N))) - 1 / 2 ≤ (grover_iterations N : ℝ) := by
  have hN0 : (0 : ℝ) < N := by exact_mod_cast Nat.lt_of_lt_of_le Nat.zero_lt_two hN
  have hx0 : (0 : ℝ) < 1 / N := by positivity
  have hxlt : (1 : ℝ) / N < 1 := by
    rw [div_lt_one hN0]
    exact_mod_cast Nat.lt_of_lt_of_le Nat.one_lt_two hN
  have hs0 : 0 < Real.sqrt (1 / N) := Real.sqrt_pos.mpr hx0
  have hslt : Real.sqrt (1 / N) < 1 := by
    have h := Real.sqrt_lt_sqrt hx0.le hxlt
    simpa [Real.sqrt_one] using h
  have hth0 : 0 < Real.arcsin (Real.sqrt (1 / N)) := Real.arcsin_pos.mpr hs0
  have hthlt : Real.arcsin (Real.sqrt (1 / N)) < Real.pi / 2 :=
    Real.arcsin_lt_pi_div_two.mpr hslt
  have h4 : (0 : ℝ) < 4 * Real.arcsin (Real.sqrt (1 / N)) := by linarith
  have hxpos : 0 < Real.pi / (4 * Real.arcsin (Real.sqrt (1 / N))) - 1 / 2 := by
    have h12 : (1 : ℝ) / 2 < Real.pi / (4 * Real.arcsin (Real.sqrt (1 / N))) := by
      rw [div_lt_div_iff₀ two_pos h4]
      nlinarith [Real.pi_pos]
    linarith
  have hceil : 0 < ⌈Real.pi / (4 * Real.arcsin (Real.sqrt (1 / N))) - 1 / 2⌉ :=
    Int.ceil_pos.mpr hxpos
  constructor
  · unfold grover_iterations
    omega
  · have h1 := Int.le_ceil (Real.pi / (4 * Real.arcsin (Real.sqrt (1 / N))) - 1 / 2)
    have h2 : ((grover_iterations N : ℕ) : ℝ) =
        ((⌈Real.pi / (4 * Real.arcsin (Real.sqrt (1 / N))) - 1 / 2⌉ : ℤ) : ℝ) := by
      unfold grover_iterations
      rw [show ((⌈Real.pi / (4 * Real.arcsin (Real.sqrt (1 / N))) - 1 / 2⌉.toNat : ℕ) : ℝ) =
        ((⌈Real.pi / (4 * Real.arcsin (Real.sqrt (1 / N))) - 1 / 2⌉.toNat : ℤ) : ℝ) by push_cast; ring]
      rw [Int.toNat_of_nonneg hceil.le]
    rw [h2]
    exact h1

theorem grover_feasible (N : ℕ) (hN : 2 ≤ N) :
    Real.sin (Real.pi / (4 * (grover_iterations N : ℝ) + 2)) ≤ Real.sqrt (1 / N) := by
  obtain ⟨hT1, hTx⟩ := grover_iterations_spec N hN
  have hN0 : (0 : ℝ) < N := by exact_mod_cast Nat.lt_of_lt_of_le Nat.zero_lt_two hN
  have hx0 : (0 : ℝ) < 1 / N := by positivity
  have hs0 : 0 < Real.sqrt (1 / N) := Real.sqrt_pos.mpr hx0
  have hth0 : 0 < Real.arcsin (Real.sqrt (1 / N)) := Real.arcsin_pos.mpr hs0
  have hthle : Real.arcsin (Real.sqrt (1 / N)) ≤ Real.pi / 2 :=
    Real.arcsin_le_pi_div_two _
  have h4T : (0 : ℝ) < 4 * (grover_iterations N : ℝ) + 2 := by positivity
  have hpi : Real.pi ≤ (4 * (grover_iterations N : ℝ) + 2) * Real.arcsin (Real.sqrt (1 / N)) := by
    have h' : Real.pi / (4 * Real.arcsin (Real.sqrt (1 / N))) ≤ (grover_iterations N : ℝ) + 1 / 2 := by
      linarith
    have := (div_le_iff₀ (by linarith : (0 : ℝ) < 4 * Real.arcsin (Real.sqrt (1 / N)))).mp h'
    nlinarith
  have hβθ : Real.pi / (4 * (grover_iterations N : ℝ) + 2) ≤ Real.arcsin (Real.sqrt (1 / N)) := by
    rw [div_le_iff₀ h4T]
    nlinarith
  have hβ0 : 0 < Real.pi / (4 * (grover_iterations N : ℝ) + 2) := div_pos Real.pi_pos h4T
  calc Real.sin (Real.pi / (4 * (grover_iterations N : ℝ) + 2))
      ≤ Real.sin (Real.arcsin (Real.sqrt (1 / N))) := by
        apply Real.sin_le_sin_of_le_of_le_pi_div_two (by linarith [Real.pi_pos]) hthle hβθ
    _ = Real.sqrt (1 / N) := Real.sin_arcsin (by linarith [Real.sqrt_nonneg (1 / N)])
        (by have h := Real.sqrt_le_sqrt
              (show (1 : ℝ) / N ≤ 1 by rw [div_le_one hN0]; exact_mod_cast Nat.one_le_of_lt hN)
            simpa [Real.sqrt_one] using h)

theorem exactU_mul_conj (N t : ℕ) :
    exactU N t * (starRingEnd ℂ) (exactU N t) = 1 := by
  rw [exactU, ← Complex.exp_conj, map_mul, Complex.conj_ofReal, Complex.conj_I,
    ← Complex.exp_add]
  rw [show ((exactPhase N t : ℝ) : ℂ) * Complex.I + (exactPhase N t : ℝ) * -Complex.I = 0 by ring]
  exact Complex.exp_zero

theorem exactU_normSq (N t : ℕ) : Complex.normSq (exactU N t) = 1 := by
  rw [← Complex.sq_abs, exactU, Complex.abs_exp_ofReal_mul_I]
  norm_num

theorem exactU_add_conj (N t : ℕ) :
    exactU N t + (starRingEnd ℂ) (exactU N t) = ((2 * Real.cos (exactPhase N t) : ℝ) : ℂ) := by
  rw [exactU, Complex.add_conj, Complex.exp_ofReal_mul_I_re]

theorem cos_exactPhase (N t : ℕ)
    (h1 : Real.sin (Real.pi / (4 * t + 2)) * Real.sqrt N ≤ 1)
    (h0 : 0 ≤ Real.sin (Real.pi / (4 * t + 2))) :
    Real.cos (exactPhase N t) =
      1 - 2 * (Real.sin (Real.pi / (4 * t + 2)) * Real.sqrt N) ^ 2 := by
  rw [exactPhase]
  have hcos : Real.cos (2 * Real.arcsin (Real.sin (Real.pi / (4 * t + 2)) * Real.sqrt N)) =
      1 - 2 * Real.sin (Real.arcsin (Real.sin (Real.pi / (4 * t + 2)) * Real.sqrt N)) ^ 2 := by
    rw [Real.cos_two_mul, Real.cos_sq']
    ring
  rw [hcos, Real.sin_arcsin (by nlinarith [mul_nonneg h0 (Real.sqrt_nonneg (N : ℝ))]) h1]

theorem cheb_final (β : ℝ) (T : ℕ) (hβ : (4 * (T : ℝ) + 2) * β = Real.pi) :
    chebA β T * (1 - 4 * Real.sin β ^ 2) - chebB β T = 0 := by
  have h2T : 2 * (T : ℝ) * β = Real.pi / 2 - β := by linarith
  have h2T' : 2 * (T : ℝ) * β - 2 * β = Real.pi / 2 - 3 * β := by linarith
  have hnum : Real.sin (2 * (T : ℝ) * β) * (1 - 4 * Real.sin β ^ 2) -
      Real.sin (2 * (T : ℝ) * β - 2 * β) = 0 := by
    rw [h2T', h2T, Real.sin_pi_div_two_sub, Real.sin_pi_div_two_sub, Real.cos_three_mul]
    linear_combination (-4 * Real.cos β) * Real.sin_sq_add_cos_sq β
  rw [chebA, chebB]
  have : Real.sin (2 * (T : ℝ) * β) / Real.sin (2 * β) * (1 - 4 * Real.sin β ^ 2) -
      Real.sin (2 * (T : ℝ) * β - 2 * β) / Real.sin (2 * β) =
      (Real.sin (2 * (T : ℝ) * β) * (1 - 4 * Real.sin β ^ 2) -
        Real.sin (2 * (T : ℝ) * β - 2 * β)) / Real.sin (2 * β) := by
    ring
  rw [this, hnum, zero_div]

/-! ## The marked set determined by the query oracle -/

theorem queryMarked_single {α β : Type} [DecidableEq β] {N : ℕ} (db : List α)
    (f : α → β) (query : α) (j : Fin N) (hlen : db.length = N)
    (hnodup : (db.map f).Nodup) (hj : db.get? (j : ℕ) = some query) (i : Fin N) :
    queryMarked db f query (N := N) i = decide (i = j) := by
  have hi : (i : ℕ) < db.length := by rw [hlen]; exact i.isLt
  have hjlt : (j : ℕ) < db.length := by rw [hlen]; exact j.isLt
  have hmi : (i : ℕ) < (db.map f).length := by simpa using hi
  have hmj : (j : ℕ) < (db.map f).length := by simpa using hjlt
  have hq : query = db.get ⟨(j : ℕ), hjlt⟩ := by
    rw [List.get?_eq_get hjlt] at hj
    exact (Option.some_inj.mp hj).symm
  have hmap : create_db_oracle db f (i : ℕ) = some (f (db.get ⟨(i : ℕ), hi⟩)) := by
    simp only [create_db_oracle]
    rw [List.get?_eq_get hi]
    rfl
  rw [queryMarked, hmap, hq]
  simp only [decide_eq_decide, Option.some_inj]
  constructor
  · intro hf
    have hmapget : (db.map f)[(i : ℕ)] = (db.map f)[(j : ℕ)] := by
      simpa [List.getElem_map] using hf
    exact Fin.ext ((List.Nodup.getElem_inj_iff hnodup).mp hmapget)
  · intro h
    cases h
    rfl

theorem groverRun_unmarked {N : ℕ} (marked : Fin N → Bool) (hm : ∀ i, marked i = false)
    (u : ℂ) (hNC : (N : ℂ) ≠ 0) (t : ℕ) :
    groverRun N marked u t = fun _ => u ^ t * (((Real.sqrt N)⁻¹ : ℝ) : ℂ) := by
  induction t with
  | zero =>
      funext i
      simp [groverRun, uniformState]
  | succ t ih =>
      funext i
      rw [groverRun, ih]
      simp only [groverStep, oraclePhase, diffusion, hm, Bool.false_eq_true, if_false]
      rw [Finset.sum_const, Finset.card_univ, Fintype.card_fin, nsmul_eq_mul]
      rw [pow_succ]
      simp only [Complex.ofReal_inv, div_eq_mul_inv]
      have hNN : (N : ℂ) * ((N : ℂ))⁻¹ = 1 := mul_inv_cancel₀ hNC
      linear_combination (-((1 - u) * (u ^ t * ((Real.sqrt N : ℂ))⁻¹))) * hNN

/-! ## C1: the exact variant finds a uniquely-marked index with certainty -/

/-- C1.  For a collection filling all `2^n` slots, with pairwise-distinct
labels and the query stored at index `j` (so the assumed marked-state count
`M = 1` is correct), the state prepared by `search_word` in exact mode puts
probability exactly 1 on index `j`: on a noiseless backend the single
measurement sample returns `j` on every trial. -/
theorem claim_C1_exact_search (n : ℕ) (hn : 1 ≤ n) {α β : Type} [DecidableEq β]
    (db : List α) (f : α → β) (query : α) (j : Fin (2 ^ n))
    (hlen : db.length = 2 ^ n) (hnodup : (db.map f).Nodup)
    (hj : db.get? (j : ℕ) = some query) :
    outcomeProb (search_word_state n db f query) j = 1 ∧
    ∀ i : Fin (2 ^ n), outcomeProb (search_word_state n db f query) i ≠ 0 → i = j := by
  have hN2 : 2 ≤ 2 ^ n := by
    calc 2 = 2 ^ 1 := (pow_one 2).symm
    _ ≤ 2 ^ n := Nat.pow_le_pow_right (by norm_num) hn
  have hN0 : 0 < 2 ^ n := by positivity
  have hNC : ((2 ^ n : ℕ) : ℂ) ≠ 0 := Nat.cast_ne_zero.mpr hN0.ne'
  set T := grover_iterations (2 ^ n) with hT
  obtain ⟨hT1, _⟩ := grover_iterations_spec (2 ^ n) hN2
  set β := Real.pi / (4 * (T : ℝ) + 2) with hβdef
  have h4T : (0 : ℝ) < 4 * (T : ℝ) + 2 := by positivity
  have hβpos : 0 < β := div_pos Real.pi_pos h4T
  have hβle : β ≤ Real.pi / 6 := by
    rw [hβdef]
    apply div_le_div_of_nonneg_left Real.pi_pos.le (by norm_num)
    have h1 : (1 : ℝ) ≤ (T : ℝ) := by exact_mod_cast hT1
    linarith
  have hs2pos : 0 < Real.sin (2 * β) :=
    Real.sin_pos_of_pos_of_lt_pi (by linarith) (by nlinarith [Real.pi_pos])
  have hs2 : Real.sin (2 * β) ≠ 0 := hs2pos.ne'
  have hfeas := grover_feasible (2 ^ n) hN2
  rw [← hT, ← hβdef] at hfeas
  have hsqN : 0 < Real.sqrt ((2 ^ n : ℕ) : ℝ) :=
    Real.sqrt_pos.mpr (by exact_mod_cast hN0)
  have hx1 : Real.sin β * Real.sqrt ((2 ^ n : ℕ) : ℝ) ≤ 1 := by
    have h1 : Real.sqrt (1 / ((2 ^ n : ℕ) : ℝ)) = (Real.sqrt ((2 ^ n : ℕ) : ℝ))⁻¹ := by
      rw [one_div, Real.sqrt_inv]
    calc Real.sin β * Real.sqrt ((2 ^ n : ℕ) : ℝ)
        ≤ (Real.sqrt ((2 ^ n : ℕ) : ℝ))⁻¹ * Real.sqrt ((2 ^ n : ℕ) : ℝ) := by
          apply mul_le_mul_of_nonneg_right _ hsqN.le
          rw [← h1]
          exact hfeas
      _ = 1 := inv_mul_cancel₀ hsqN.ne'
  have hx0 : 0 ≤ Real.sin β :=
    Real.sin_nonneg_of_nonneg_of_le_pi hβpos.le (by nlinarith [Real.pi_pos])
  set u := exactU (2 ^ n) T with hu
  have hu1 : u * (starRingEnd ℂ) u = 1 := exactU_mul_conj _ _
  have hcos := cos_exactPhase (2 ^ n) T hx1 hx0
  have hNS : (((2 ^ n : ℕ) : ℂ))⁻¹ * ((2 ^ n : ℕ) : ℂ) = 1 := inv_mul_cancel₀ hNC
  have hrel : (((2 ^ n : ℕ) : ℂ))⁻¹ * (u + (starRingEnd ℂ) u) =
      2 * (((2 ^ n : ℕ) : ℂ))⁻¹ - 4 * ((Real.sin β ^ 2 : ℝ) : ℂ) := by
    rw [hu, exactU_add_conj]
    rw [← hβdef] at hcos
    rw [hcos]
    have hxsq : (Real.sin β * Real.sqrt ((2 ^ n : ℕ) : ℝ)) ^ 2 =
        Real.sin β ^ 2 * ((2 ^ n : ℕ) : ℝ) := by
      rw [mul_pow, Real.sq_sqrt (by positivity)]
    rw [hxsq]
    rw [show ((2 * (1 - 2 * (Real.sin β ^ 2 * ((2 ^ n : ℕ) : ℝ))) : ℝ) : ℂ) =
      2 - 4 * ((Real.sin β ^ 2 : ℝ) : ℂ) * ((2 ^ n : ℕ) : ℂ) by push_cast; ring]
    linear_combination (-4 * ((Real.sin β ^ 2 : ℝ) : ℂ)) * hNS
  have hclosed := pairRun_closed (2 ^ n) u β hNC hs2 hu1 hrel T
  have hβeq : (4 * (T : ℝ) + 2) * β = Real.pi := by
    rw [hβdef]
    field_simp
  have hfinal : chebA β T * (1 - 4 * Real.sin β ^ 2) - chebB β T = 0 := cheb_final β T hβeq
  have hB0 : pairB (2 ^ n) u β T = 0 := by
    rw [pairB, coefL]
    rw [show ((chebA β T : ℝ) : ℂ) * ((1 - 4 * Real.sin β ^ 2 : ℝ) : ℂ) -
        ((chebB β T : ℝ) : ℂ) =
        ((chebA β T * (1 - 4 * Real.sin β ^ 2) - chebB β T : ℝ) : ℂ) by push_cast; ring]
    rw [hfinal]
    simp
  have hinv := pairRun_invariant (2 ^ n) hN0 u hu1 T
  rw [hclosed] at hinv
  simp only [hB0, map_zero, mul_zero, zero_mul, add_zero] at hinv
  have hA2 : Complex.normSq (pairA (2 ^ n) u β T) = 1 := by
    rw [Complex.mul_conj] at hinv
    exact_mod_cast hinv
  have hm := queryMarked_single db f query j hlen hnodup hj
  have hstate : search_word_state n db f query =
      twoVal j (pairA (2 ^ n) u β T) (pairB (2 ^ n) u β T) := by
    rw [search_word_state, ← hT, ← hu, groverRun_twoVal j (queryMarked db f query) hm u T,
      hclosed]
  constructor
  · rw [hstate, outcomeProb]
    simp [twoVal, hA2]
  · intro i hprob
    by_contra hne
    apply hprob
    rw [hstate, outcomeProb]
    simp [twoVal, hne, hB0]

/-- Witness for C1: eight distinct tokens, query stored at index 3; the
prepared state returns index 3 with probability 1 and nothing else. -/
theorem claim_C1_witness :
    outcomeProb (search_word_state 3 [0, 1, 2, 3, 4, 5, 6, 7] (fun m : ℕ => m) 3)
      ⟨3, by norm_num⟩ = 1 ∧
    ∀ i : Fin (2 ^ 3),
      outcomeProb (search_word_state 3 [0, 1, 2, 3, 4, 5, 6, 7] (fun m : ℕ => m) 3) i ≠ 0 →
      i = ⟨3, by norm_num⟩ :=
  claim_C1_exact_search 3 (by norm_num) [0, 1, 2, 3, 4, 5, 6, 7] (fun m : ℕ => m) 3
    ⟨3, by norm_num⟩ (by decide) (by decide) (by decide)

/-! ## C8: completion without a sentinel when the query is absent -/

/-- C8.  When the queried label is absent from the collection, the marker is
a no-op, the prepared distribution is exactly uniform, and every possible
outcome is an in-range index with probability `1/2^n ≠ 0` — never a
sentinel.  Consequently, whenever a request reaches the core, the handler
takes the `found` branch: the `position == -1` branch is unreachable,
because the core returns a natural number. -/
theorem claim_C8_no_sentinel (n : ℕ) {α β : Type} [DecidableEq β] (db : List α)
    (f : α → β) (query : α) (habsent : f query ∉ db.map f) :
    (∀ i : Fin (2 ^ n),
      outcomeProb (search_word_state n db f query) i = (((2 ^ n : ℕ) : ℝ))⁻¹ ∧
      outcomeProb (search_word_state n db f query) i ≠ 0 ∧ (i : ℕ) < 2 ^ n) ∧
    (∀ (core : List Char → List Char → ℕ) (kvs : List (String × String)) (w s : String),
      kvs ≠ [] → kvs.lookup "word" = some w → kvs.lookup "string" = some s →
      find_position core (some kvs) = .found ((core w.toList s.toList : ℕ) : ℤ)) := by
  have hN0 : 0 < 2 ^ n := by positivity
  have hNC : ((2 ^ n : ℕ) : ℂ) ≠ 0 := Nat.cast_ne_zero.mpr hN0.ne'
  constructor
  · intro i
    have hmarked : ∀ i : Fin (2 ^ n), queryMarked db f query (N := 2 ^ n) i = false := by
      intro i
      rw [queryMarked]
      apply decide_eq_false
      intro heq
      simp only [create_db_oracle] at heq
      cases hg : db.get? (i : ℕ) with
      | none => rw [hg] at heq; simp at heq
      | some x =>
          rw [hg] at heq
          simp only [Option.map_some'] at heq
          have hfx := Option.some_inj.mp heq
          exact habsent (hfx ▸ List.mem_map_of_mem f (List.get?_mem hg))
    have hrun := groverRun_unmarked (queryMarked db f query) hmarked
      (exactU (2 ^ n) (grover_iterations (2 ^ n))) hNC (grover_iterations (2 ^ n))
    have hval : outcomeProb (search_word_state n db f query) i = (((2 ^ n : ℕ) : ℝ))⁻¹ := by
      rw [search_word_state, hrun, outcomeProb]
      rw [Complex.normSq_mul, map_pow, exactU_normSq, one_pow, one_mul,
        Complex.normSq_ofReal]
      rw [← mul_inv, Real.mul_self_sqrt (by positivity)]
    refine ⟨hval, ?_, i.isLt⟩
    rw [hval]
    exact inv_ne_zero (by exact_mod_cast hN0.ne')
  · intro core kvs w s hne hw hs
    simp only [find_position]
    rw [if_neg hne]
    simp only [hw, hs]
    have hnot : ((core w.toList s.toList : ℕ) : ℤ) ≠ -1 := by omega
    simp [hnot]

/-- Witness for C8: query `5` is absent from the two-token collection; the
outcome distribution is uniform and the handler takes the `found` branch. -/
theorem claim_C8_witness :
    outcomeProb (search_word_state 1 [0, 1] (fun m : ℕ => m) 5) ⟨0, by norm_num⟩ =
      (((2 ^ 1 : ℕ) : ℝ))⁻¹ ∧
    find_position (fun _ _ => 0) (some [("word", "x"), ("string", "y")]) = .found 0 := by
  obtain ⟨h1, h2⟩ := claim_C8_no_sentinel 1 [0, 1] (fun m : ℕ => m) 5 (by decide)
  exact ⟨(h1 ⟨0, by norm_num⟩).1,
    h2 (fun _ _ => 0) [("word", "x"), ("string", "y")] "x" "y" (by decide) (by decide)
      (by decide)⟩

/-! ## C2: the exact-mode iteration count for `N = 8`, `M = 1` -/

/-- C2.  The exact-mode iteration count is the integer round of
`π/(4θ) - 1/2` with `θ = arcsin(√(M/N))`; for `N = 8`, `M = 1` both the
spec's closed form `round(π/(4·arcsin(√(1/8))) − 1/2)` and the iteration
count used by the engine (whose rounding is chosen upward when needed so the
success probability is exactly 1, which coincides with the round here)
evaluate to 2. -/
theorem claim_C2_iteration_count :
    exact_iterations 8 1 = 2 ∧ grover_iterations 8 = 2 ∧
    exact_iterations 8 1 = round (Real.pi / (4 * Real.arcsin (Real.sqrt (1 / 8))) - 1 / 2) := by
  have hsqub : Real.sqrt (1 / 8) ≤ 0.3536 := by
    calc Real.sqrt (1 / 8) ≤ Real.sqrt (0.3536 ^ 2) := Real.sqrt_le_sqrt (by norm_num)
    _ = 0.3536 := Real.sqrt_sq (by norm_num)
  have hsqlb : (0.3535 : ℝ) ≤ Real.sqrt (1 / 8) := by
    rw [show (0.3535 : ℝ) = Real.sqrt (0.3535 ^ 2) from (Real.sqrt_sq (by norm_num)).symm]
    exact Real.sqrt_le_sqrt (by norm_num)
  have hθub : Real.arcsin (Real.sqrt (1 / 8)) ≤ Real.pi / 8 := by
    have hpi8 : Real.pi / 8 ≤ 1 := by nlinarith [Real.pi_lt_four]
    have hπ3 : Real.pi ^ 3 < 3.1416 ^ 3 :=
      pow_lt_pow_left₀ Real.pi_lt_d4 Real.pi_pos.le (by norm_num)
    have hs8 : (0.377 : ℝ) ≤ Real.sin (Real.pi / 8) := by
      have hgt := Real.sin_gt_sub_cube (x := Real.pi / 8) (by positivity) hpi8
      nlinarith [Real.pi_gt_d4, hgt, hπ3]
    apply (Real.arcsin_le_iff_le_sin ⟨by linarith [Real.sqrt_nonneg ((1 : ℝ) / 8)], by linarith [hsqub]⟩
      ⟨by nlinarith [Real.pi_pos], by nlinarith [Real.pi_pos]⟩).mpr
    linarith
  have hθlb : Real.pi / 10 ≤ Real.arcsin (Real.sqrt (1 / 8)) := by
    apply (Real.le_arcsin_iff_sin_le' ⟨by nlinarith [Real.pi_pos], by nlinarith [Real.pi_pos]⟩).mpr
    have h1 : Real.sin (Real.pi / 10) < Real.pi / 10 := Real.sin_lt (by positivity)
    have h2 : Real.pi / 10 < 0.3535 := by nlinarith [Real.pi_lt_d2]
    linarith
  have hθpos : 0 < Real.arcsin (Real.sqrt (1 / 8)) :=
    lt_of_lt_of_le (by positivity) hθlb
  have hub : Real.pi / (4 * Real.arcsin (Real.sqrt (1 / 8))) ≤ 5 / 2 := by
    rw [div_le_iff₀ (by positivity)]
    nlinarith [hθlb]
  have hlb : 2 ≤ Real.pi / (4 * Real.arcsin (Real.sqrt (1 / 8))) := by
    rw [le_div_iff₀ (by positivity)]
    nlinarith [hθub]
  have hround : round (Real.pi / (4 * Real.arcsin (Real.sqrt (1 / 8))) - 1 / 2) = 2 := by
    rw [round_eq, show Real.pi / (4 * Real.arcsin (Real.sqrt (1 / 8))) - 1 / 2 + 1 / 2 =
      Real.pi / (4 * Real.arcsin (Real.sqrt (1 / 8))) by ring]
    apply Int.floor_eq_iff.mpr
    constructor
    · exact_mod_cast hlb
    · push_cast
      linarith
  have hceil : ⌈Real.pi / (4 * Real.arcsin (Real.sqrt (1 / 8))) - 1 / 2⌉ = 2 := by
    apply Int.ceil_eq_iff.mpr
    constructor
    · push_cast
      linarith
    · push_cast
      linarith
  refine ⟨?_, ?_, ?_⟩
  · rw [exact_iterations,
      show (((1 : ℕ) : ℝ)) / ((8 : ℕ) : ℝ) = 1 / 8 by norm_num]
    exact hround
  · rw [grover_iterations, show (1 : ℝ) / ((8 : ℕ) : ℝ) = 1 / 8 by norm_num, hceil]
    rfl
  · rw [exact_iterations,
      show (((1 : ℕ) : ℝ)) / ((8 : ℕ) : ℝ) = 1 / 8 by norm_num]

/-! ## C9: malformed requests are rejected at the boundary -/

/-- C9.  A request whose JSON body is missing, or empty, or lacks the
`word` or the `string` key, is answered with HTTP 400 and the error message,
for every possible search core — so the core is never invoked on such
requests. -/
theorem claim_C9_malformed (data : Option (List (String × String)))
    (h : data = none ∨ data = some [] ∨
      ∃ kvs, data = some kvs ∧
        (kvs.lookup "word" = none ∨ kvs.lookup "string" = none)) :
    ∀ core, find_position core data = .badRequest 400 missingKeysMsg := by
  intro core
  rcases h with h | h | ⟨kvs, hk, hmiss⟩
  · subst h; rfl
  · subst h; rfl
  · subst hk
    simp only [find_position]
    by_cases he : kvs = []
    · simp [he]
    · rcases hmiss with hm | hm
      · simp [he, hm]
      · cases hw : kvs.lookup "word" <;> simp [he, hm, hw]

/-- Witness for C9: a body with only the `word` key is rejected with 400. -/
theorem claim_C9_witness :
    find_position (fun _ _ => 0) (some [("word", "hi")]) =
      .badRequest 400 missingKeysMsg :=
  claim_C9_malformed _ (Or.inr (Or.inr ⟨_, rfl, Or.inr (by decide)⟩)) _

/-! ## C10: the launcher starts the backend iff the port is free -/

/-- C10.  `main` starts a backend instance iff the fixed endpoint
`127.0.0.1:42069` is not already bound; when the port is bound it returns
without starting a backend and without raising. -/
theorem claim_C10_launcher (bound : Bool) :
    (main bound = .startBackend ↔ bound = false) ∧
    (bound = true → main bound = .skip) := by
  cases bound <;> exact ⟨by decide, by decide⟩

/-- Witness for C10 at both port states. -/
theorem claim_C10_witness : main true = .skip ∧ main false = .startBackend :=
  ⟨(claim_C10_launcher true).2 rfl, (claim_C10_launcher false).1.mpr rfl⟩

end SearchApp
